import Mathlib

set_option linter.unusedVariables false

/-!
Shallow embedding of ethspam (src/main.go): a weighted-random JSON-RPC load
generator.  The embedded pieces are the weighted registry (struct generator
with Add and Query), the selection walk and its panic branch, the transport
dispatch helper (func query), the worker loop of main, the state-producer
goroutine's control flow, and the worker's initial blocking receive.  Machine
int64 arithmetic is modelled as unbounded Int: no claim here concerns
overflow, and Go's % on int64 is truncated remainder, Int.tmod.
-/

/-- Modelled from the spec: the ChainState snapshot (spec section 3) carrying
chain facts plus a reference to a shared pseudo-random source; its
implementation (liveState, referenced from main.go) is not under src/.  Only
the random draws matter to the claims, so the source is modelled positionally:
randSrc lists the successive values the shared source will return and pos
counts how many have been consumed so far. -/
structure State where
  randSrc : Nat → Int
  pos : Nat

/-- Modelled from the spec: one draw from the state's random source
(liveState.RandInt64 is not under src/): returns the next value and the state
with the source advanced by one.  Go's rand.Source yields non-negative int64
values; claims needing non-negativity take it as an explicit hypothesis. -/
def State.RandInt64 (s : State) : Int × State :=
  (s.randSrc s.pos, { s with pos := s.pos + 1 })

/-- Error values a query generator can return: io.EOF (the end-of-input signal
the worker loop compares against) or any other error value. -/
inductive GenError
  | eof
  | other (msg : String)
deriving DecidableEq

/-- type Generator func(io.Writer, State) error, modelled as a function of the
state that returns the bytes it wrote, the state after its own random draws,
and its error result. -/
def Generator : Type := State → String × State × Option GenError

/-- RandomQuery from main.go.  A Go func-typed field's zero value is nil, so
Generate is an Option; none models a nil function value. -/
structure RandomQuery where
  Method : String
  Weight : Int
  Generate : Option Generator

/-- The weighted registry from main.go (struct generator): the query sequence
plus the running totalWeight.  Go's zero value generator{} has a nil slice and
a zero total, modelled by emptyGenerator below. -/
structure generator where
  queries : List RandomQuery
  totalWeight : Int

/-- The zero value generator{} that main starts from. -/
def emptyGenerator : generator := { queries := [], totalWeight := 0 }

/-- The zero value RandomQuery{} that Add appends as a placeholder slot. -/
def zeroRandomQuery : RandomQuery := { Method := "", Weight := 0, Generate := none }

/-- Go sort.Search's binary-search loop, embedded with an explicit fuel
parameter so the recursion is structural.  Every Go iteration strictly shrinks
j - i, so any fuel of at least j - i makes the embedding agree with the Go
loop; the correctness lemma below carries that bound, and sortSearch passes
fuel n for the initial interval [0, n). -/
def searchGo (f : Nat → Bool) : Nat → Nat → Nat → Nat
  | 0, i, _ => i
  | fuel + 1, i, j =>
    if i < j then
      if f ((i + j) / 2) then searchGo f fuel i ((i + j) / 2)
      else searchGo f fuel ((i + j) / 2 + 1) j
    else i

/-- sort.Search(n, f) from Go's standard library as used by generator.Add. -/
def sortSearch (n : Nat) (f : Nat → Bool) : Nat := searchGo f n 0 n

/-- generator.Add from main.go: grow queries by one zero-valued slot (make of
size one when the slice is nil, otherwise append RandomQuery{}), binary-search
for the first index whose entry's Weight is below the new query's weight,
shift the tail one slot right (Go's copy has memmove semantics on overlap),
overwrite the freed slot with the new query, and accumulate totalWeight.
Whenever the search result idx is within bounds this transcribes the Go code
exactly; the lemmas below show positive weights keep idx within bounds, where
Go's slice expression queries[idx+1:] would otherwise panic. -/
def generator.Add (g : generator) (q : RandomQuery) : generator :=
  let qs := g.queries ++ [zeroRandomQuery]
  let idx := sortSearch qs.length (fun i => decide ((qs.getD i zeroRandomQuery).Weight < q.Weight))
  let shifted := qs.take (idx + 1) ++ (qs.drop idx).take (qs.length - (idx + 1))
  { queries := shifted.set idx q
    totalWeight := g.totalWeight + q.Weight }

/-- Folding a whole initialization sequence of Add calls, as installDefaults
does starting from the zero-valued generator. -/
def addAll (g : generator) (l : List RandomQuery) : generator :=
  l.foldl generator.Add g

/-- Outcome of running a piece of Go code that can panic. -/
inductive ExecOutcome (α : Type)
  | ok (val : α)
  | panicked (msg : String)

/-- Message of the Go runtime's nil-pointer/nil-function panic. -/
def nilDerefMsg : String := "runtime error: invalid memory address or nil pointer dereference"

/-- Message of the explicit panic at the end of generator.Query. -/
def offByOneMsg : String := "off by one bug in weighted query selection"

/-- Error values generator.Query can return (as opposed to panics):
errors.New("no query generators available") for the empty registry, or the
error propagated from the chosen query's Generate (io.EOF becomes
fromGen GenError.eof). -/
inductive QueryError
  | noGenerators
  | fromGen (e : GenError)
deriving DecidableEq

/-- The cumulative-weight walk in generator.Query: current += q.Weight, and
the first entry with current >= weight is returned.  none models falling off
the end of the sequence, which in the Go code reaches the panic. -/
def selectLoop : List RandomQuery → Int → Int → Option RandomQuery
  | [], _, _ => none
  | q :: rest, current, weight =>
    if weight ≤ current + q.Weight then some q
    else selectLoop rest (current + q.Weight) weight

/-- Index form of the same walk, used to state which entry the walk picks. -/
def selectIdx : List RandomQuery → Int → Int → Option Nat
  | [], _, _ => none
  | q :: rest, current, weight =>
    if weight ≤ current + q.Weight then some 0
    else (selectIdx rest (current + q.Weight) weight).map (· + 1)

/-- The walk on the weight values alone, for the counting arguments. -/
def selectIdxW : List Int → Int → Int → Option Nat
  | [], _, _ => none
  | w :: rest, current, weight =>
    if weight ≤ current + w then some 0
    else (selectIdxW rest (current + w) weight).map (· + 1)

/-- generator.Query from main.go: fail on an empty registry, otherwise draw
s.RandInt64() % totalWeight (Go % on int64 is truncated remainder, Int.tmod;
Go would panic on a zero divisor, a case no claim reaches since positive
weights make the total positive), walk the sequence, and run the chosen
query's Generate on the advanced state.  Falling off the walk is the explicit
off-by-one panic; invoking a nil Generate is Go's nil-function-call panic. -/
def generator.Query (g : generator) (s : State) :
    ExecOutcome (Option QueryError × String × State) :=
  if g.queries.length = 0 then .ok (some .noGenerators, "", s)
  else
    match selectLoop g.queries 0 (Int.tmod (s.RandInt64).1 g.totalWeight) with
    | some q =>
      match q.Generate with
      | none => .panicked nilDerefMsg
      | some gen =>
        match gen (s.RandInt64).2 with
        | (out, s2, err) => .ok (err.map .fromGen, out, s2)
    | none => .panicked offByOneMsg

/-- A response from the external HTTP transport, as far as main.go reads it. -/
structure HttpResponse where
  StatusCode : Int
deriving DecidableEq

/-- func query(endpoint string, queryBuf) from main.go.  The external
http.Post call's outcome is an input (response?, error?): Go's net/http
returns a nil *Response exactly when the send failed in transport, and a
non-nil response alongside an error only for a redirect-policy failure.  On
any error the code formats a log line that reads resp.StatusCode before the
counter increment; when resp is nil that read is a nil-pointer dereference,
which panics.  On the non-panicking paths the function returns the counter
after its single atomic increment together with the log lines emitted. -/
def query (post : Option HttpResponse × Option String) (counter : Int) :
    ExecOutcome (Int × List String) :=
  match post with
  | (resp, some e) =>
    match resp with
    | none => .panicked nilDerefMsg
    | some r =>
      .ok (counter + 1, ["error: " ++ e ++ ", status code: " ++ toString r.StatusCode])
  | (_, none) => .ok (counter + 1, [])

/-- The Options flag structure from main.go, as far as the worker loop can
observe it (Methods feed installDefaults before the loop starts). -/
structure Options where
  Methods : List (String × Int)
  Web3Endpoint : String
  RateLimit : Float
  Version : Bool

/-- The nondeterministic environment one worker observes, resolved per loop
iteration k: whether the state channel has a snapshot ready, whether ctx.Done
is ready, and what the external http.Post returns for a dispatch made at that
iteration. -/
structure WorkerEnv where
  chan : Nat → Option State
  canceled : Nat → Bool
  post : Nat → Option HttpResponse × Option String

/-- Result of running one worker from some iteration on: the worker returned
(EOF or cancellation) while the process keeps running; the worker called
exit(code); the goroutine panicked, killing the process; or the modelling
fuel ran out mid-loop.  Each carries the (endpoint, body) dispatches the
worker sent from that point on, in order. -/
inductive WorkerResult
  | finished (dispatches : List (String × String))
  | procExit (code : Int) (dispatches : List (String × String))
  | procPanic (msg : String) (dispatches : List (String × String))
  | outOfFuel (dispatches : List (String × String))

/-- Prepends a dispatch record to a worker result. -/
def WorkerResult.addDispatch (d : String × String) : WorkerResult → WorkerResult
  | .finished ds => .finished (d :: ds)
  | .procExit c ds => .procExit c (d :: ds)
  | .procPanic m ds => .procPanic m (d :: ds)
  | .outOfFuel ds => .outOfFuel (d :: ds)

/-- The select at the top of the worker loop: adopt a newly published snapshot
when the channel has one; otherwise return when ctx.Done is ready; otherwise
the default case keeps the current snapshot.  Go picks among simultaneously
ready select cases nondeterministically; the environment resolution here
prefers the state channel, a choice none of the claims depend on.  none means
the worker returns. -/
def selectState (env : WorkerEnv) (k : Nat) (st : State) : Option State :=
  match env.chan k with
  | some newSt => some newSt
  | none => if env.canceled k then none else some st

/-- One worker goroutine's loop from main.go, fuel-bounded: run the select,
generate a query into the buffer, and either return on io.EOF (after printing
"query gen EOF"), exit(2) on any other generation error, or dispatch the
buffer with func query and loop with the buffer reset.  The counter value c
is threaded through the dispatches. -/
def workerLoop (opts : Options) (g : generator) (env : WorkerEnv) :
    Nat → State → Int → Nat → WorkerResult
  | _, _, _, 0 => .outOfFuel []
  | k, st, c, fuel + 1 =>
    match selectState env k st with
    | none => .finished []
    | some st1 =>
      match g.Query st1 with
      | .panicked m => .procPanic m []
      | .ok (some (.fromGen .eof), _, _) => .finished []
      | .ok (some _, _, _) => .procExit 2 []
      | .ok (none, out, s') =>
        match query (env.post k) c with
        | .panicked m => .procPanic m [(opts.Web3Endpoint, out)]
        | .ok (c', _) =>
          (workerLoop opts g env (k + 1) s' c' fuel).addDispatch (opts.Web3Endpoint, out)

/-- Outcome of one stateProducer.Refresh call as the producer goroutine in
main.go distinguishes them: errEmptyBlock, any other (fatal) error, or a new
state. -/
inductive RefreshResult
  | emptyBlock
  | fatal
  | ok (st : State)

/-- Control locations of the producer goroutine in main.go: about to call
Refresh; suspended in the 5-second empty-block backoff select; suspended in
the select that publishes to stateChannel; suspended in the 15-second
refresh-interval select; returned; or exiting the process. -/
inductive ProducerPhase
  | refreshing
  | backoffWait
  | sendWait (st : State)
  | intervalWait
  | stopped
  | exited (code : Int)

/-- One transition of the producer goroutine, given the outcome the next
Refresh would produce and whether ctx.Done is ready.  Transcribed from the
goroutine in main: the backoff select and the publish select return when
ctx.Done fires, but the 15-second interval select has an empty ctx.Done case
and no return, so from intervalWait the loop proceeds to the next Refresh
whether or not cancellation was observed there. -/
def producerStep (p : ProducerPhase) (r : RefreshResult) (canceled : Bool) : ProducerPhase :=
  match p with
  | .refreshing =>
    match r with
    | .emptyBlock => .backoffWait
    | .fatal => .exited 2
    | .ok st => .sendWait st
  | .backoffWait => if canceled then .stopped else .refreshing
  | .sendWait _ => if canceled then .stopped else .intervalWait
  | .intervalWait => .refreshing
  | .stopped => .stopped
  | .exited c => .exited c

/-- The statement state := <-stateChannel that opens each worker goroutine: a
plain channel receive with no surrounding select and no ctx.Done alternative,
so the worker stays blocked until a snapshot is published whether or not
cancellation has been raised.  none means still blocked. -/
def workerFirstWait (published : Option State) (canceled : Bool) : Option State :=
  published

/-- A concrete state used by closed theorems below: the shared random source
constantly returns 0. -/
def st0 : State := { randSrc := fun _ => 0, pos := 0 }

/-- Partial sums of a weight list: the sum of the first k weights. -/
def partSum (ws : List Int) (k : Nat) : Int := (ws.take k).sum

/-- A two-entry initialization sequence used by closed theorems below. -/
def w10l : List RandomQuery :=
  [{ Method := "eth_call", Weight := 2, Generate := none },
   { Method := "eth_getBalance", Weight := 3, Generate := none }]

/-- A registry holding one generator that signals io.EOF, used by closed
theorems below. -/
def eofGen : generator :=
  { queries := [{ Method := "m", Weight := 1, Generate := some (fun s => ("", s, some .eof)) }]
    totalWeight := 1 }

/-- Concrete flag values used by closed theorems below. -/
def opts0 : Options :=
  { Methods := [], Web3Endpoint := "http://e", RateLimit := 0, Version := false }

/-- A quiet worker environment: no new snapshots, no cancellation, every
dispatch answered 200. -/
def env0 : WorkerEnv :=
  { chan := fun _ => none
    canceled := fun _ => false
    post := fun _ => (some { StatusCode := 200 }, none) }

/-- A registry with one always-succeeding generator, used by closed theorems. -/
def okGen : generator :=
  { queries := [{ Method := "m", Weight := 1, Generate := some (fun s => ("req", s, none)) }]
    totalWeight := 1 }

/-- The same flags as opts0 except for a different RateLimit. -/
def opts1 : Options :=
  { Methods := [], Web3Endpoint := "http://e", RateLimit := 250, Version := false }

/-- The registry of weights 1 and 1 with total 2, refuting the proportional count. -/
def cxGen : generator :=
  { queries := [{ Method := "a", Weight := 1, Generate := none },
                { Method := "b", Weight := 1, Generate := none }]
    totalWeight := 2 }

/-- The registry of weights 2 and 1 with total 3, exercising the amended count. -/
def wGen : generator :=
  { queries := [{ Method := "a", Weight := 2, Generate := none },
                { Method := "b", Weight := 1, Generate := none }]
    totalWeight := 3 }

/-- C6: Query on the never-added-to registry fails and has no side effects. -/
theorem query_empty_registry_no_side_effects (s : State) :
    generator.Query emptyGenerator s = .ok (some .noGenerators, "", s) := rfl

theorem query_empty_registry_no_side_effects_witness :
    generator.Query emptyGenerator st0 = .ok (some .noGenerators, "", st0) :=
  query_empty_registry_no_side_effects st0

theorem searchGo_spec (f : Nat → Bool)
    (hmono : ∀ a b, a ≤ b → f a = true → f b = true) :
    ∀ fuel i j, j - i ≤ fuel → i ≤ j →
      (∀ k, k < i → f k = false) → (∀ k, j ≤ k → f k = true) →
      i ≤ searchGo f fuel i j ∧ searchGo f fuel i j ≤ j ∧
      (∀ k, k < searchGo f fuel i j → f k = false) ∧
      (∀ k, searchGo f fuel i j ≤ k → f k = true) := by
  intro fuel
  induction fuel with
  | zero =>
    intro i j hf hij hlo hhi
    have hij' : i = j := by omega
    subst hij'
    exact ⟨Nat.le_refl _, Nat.le_refl _, hlo, hhi⟩
  | succ fuel ih =>
    intro i j hf hij hlo hhi
    by_cases hlt : i < j
    · have hmi : i ≤ (i + j) / 2 := by omega
      have hmj : (i + j) / 2 < j := by omega
      cases hfm : f ((i + j) / 2) with
      | true =>
        have hrec := ih i ((i + j) / 2) (by omega) (by omega) hlo
          (fun k hk => hmono _ k hk hfm)
        simp only [searchGo, if_pos hlt, hfm, if_true]
        exact ⟨hrec.1, by omega, hrec.2.2⟩
      | false =>
        have hlo' : ∀ k, k < (i + j) / 2 + 1 → f k = false := by
          intro k hk
          rcases Nat.lt_or_ge k i with h | h
          · exact hlo k h
          · by_contra hne
            have hkt : f k = true := by
              cases hfk : f k
              · exact absurd hfk hne
              · rfl
            have := hmono k ((i + j) / 2) (by omega) hkt
            rw [hfm] at this
            exact Bool.noConfusion this
        have hrec := ih ((i + j) / 2 + 1) j (by omega) (by omega) hlo' hhi
        simp only [searchGo, if_pos hlt, hfm, Bool.false_eq_true, if_false]
        exact ⟨by omega, hrec.2.1, hrec.2.2⟩
    · have hij' : i = j := by omega
      subst hij'
      simp only [searchGo, if_neg hlt]
      exact ⟨Nat.le_refl _, Nat.le_refl _, hlo, hhi⟩

theorem sortSearch_spec (n : Nat) (f : Nat → Bool)
    (hmono : ∀ a b, a ≤ b → f a = true → f b = true)
    (htop : ∀ k, n ≤ k → f k = true) :
    sortSearch n f ≤ n ∧ (∀ k, k < sortSearch n f → f k = false) ∧
    (∀ k, sortSearch n f ≤ k → f k = true) := by
  have h := searchGo_spec f hmono n 0 n (by omega) (by omega) (by omega) htop
  exact ⟨h.2.1, h.2.2⟩

theorem Add_totalWeight (g : generator) (q : RandomQuery) :
    (g.Add q).totalWeight = g.totalWeight + q.Weight := rfl

theorem Add_queries_eq (g : generator) (q : RandomQuery)
    (hsorted : g.queries.Pairwise (fun a b => b.Weight ≤ a.Weight))
    (hq : 0 < q.Weight) :
    ∃ idx, idx ≤ g.queries.length ∧
      (∀ k, k < idx → q.Weight ≤ (g.queries.getD k zeroRandomQuery).Weight) ∧
      (∀ k, idx ≤ k → k < g.queries.length →
        (g.queries.getD k zeroRandomQuery).Weight < q.Weight) ∧
      (g.Add q).queries = g.queries.take idx ++ q :: g.queries.drop idx := by
  classical
  set m := g.queries.length with hm
  set qs := g.queries ++ [zeroRandomQuery] with hqs
  have hqslen : qs.length = m + 1 := by simp [hqs, hm]
  set f : Nat → Bool := fun i => decide ((qs.getD i zeroRandomQuery).Weight < q.Weight) with hf
  have hgetD_lt : ∀ k, k < m → qs.getD k zeroRandomQuery = g.queries.getD k zeroRandomQuery := by
    intro k hk
    exact List.getD_append _ _ _ _ (by omega)
  have hgetD_ge : ∀ k, m ≤ k → qs.getD k zeroRandomQuery = zeroRandomQuery := by
    intro k hk
    rcases Nat.lt_or_ge k (m + 1) with h | h
    · have hkm : k = m := by omega
      subst hkm
      rw [hqs, List.getD_append_right _ _ _ _ (by omega)]
      simp [hm]
    · exact List.getD_eq_default _ _ (by omega)
  have hpair : ∀ a b, a < b → b < m → (g.queries.getD b zeroRandomQuery).Weight ≤
      (g.queries.getD a zeroRandomQuery).Weight := by
    intro a b hab hbm
    have ha : a < g.queries.length := by omega
    have hb : b < g.queries.length := by omega
    have := (List.pairwise_iff_get.mp hsorted) ⟨a, ha⟩ ⟨b, hb⟩ hab
    rw [List.getD_eq_getElem _ _ hb, List.getD_eq_getElem _ _ ha]
    simpa using this
  have hmono : ∀ a b, a ≤ b → f a = true → f b = true := by
    intro a b hab hfa
    simp only [hf, decide_eq_true_eq] at hfa ⊢
    rcases Nat.lt_or_ge b m with hbm | hbm
    · rcases Nat.eq_or_lt_of_le hab with h | h
      · subst h; exact hfa
      · have ham : a < m := by omega
        rw [hgetD_lt a ham] at hfa
        rw [hgetD_lt b hbm]
        exact lt_of_le_of_lt (hpair a b h hbm) hfa
    · rw [hgetD_ge b hbm]
      simpa [zeroRandomQuery] using hq
  have htop : ∀ k, qs.length ≤ k → f k = true := by
    intro k hk
    simp only [hf, decide_eq_true_eq]
    rw [hgetD_ge k (by omega)]
    simpa [zeroRandomQuery] using hq
  obtain ⟨hle, hlow, hhigh⟩ := sortSearch_spec qs.length f hmono htop
  set idx := sortSearch qs.length f with hidx
  have hfm : f m = true := by
    simp only [hf, decide_eq_true_eq]
    rw [hgetD_ge m (by omega)]
    simpa [zeroRandomQuery] using hq
  have hidxm : idx ≤ m := by
    by_contra hgt
    have : idx = m + 1 := by omega
    have := hlow m (by omega)
    rw [hfm] at this
    exact Bool.noConfusion this
  refine ⟨idx, hidxm, ?_, ?_, ?_⟩
  · intro k hk
    have := hlow k hk
    simp only [hf, decide_eq_false_iff_not] at this
    rw [hgetD_lt k (by omega)] at this
    omega
  · intro k hk hkm
    have := hhigh k hk
    simp only [hf, decide_eq_true_eq] at this
    rwa [hgetD_lt k hkm] at this
  · show (let qs' := g.queries ++ [zeroRandomQuery]
      let idx' := sortSearch qs'.length
        (fun i => decide ((qs'.getD i zeroRandomQuery).Weight < q.Weight))
      let shifted := qs'.take (idx' + 1) ++ (qs'.drop idx').take (qs'.length - (idx' + 1))
      shifted.set idx' q) = g.queries.take idx ++ q :: g.queries.drop idx
    simp only
    rw [← hqs, ← hidx]
    have hAlen : (qs.take (idx + 1)).length = idx + 1 := by
      rw [List.length_take]
      omega
    have hshiftlen : (qs.take (idx + 1) ++ (qs.drop idx).take (qs.length - (idx + 1))).length
        = m + 1 := by
      rw [List.length_append, hAlen, List.length_take, List.length_drop]
      omega
    rw [List.set_eq_take_cons_drop _ (by omega)]
    congr 1
    · rw [List.take_append_of_le_length (by omega), List.take_take]
      have : min idx (idx + 1) = idx := by omega
      rw [this, hqs, List.take_append_of_le_length (by omega)]
    · congr 1
      rw [List.drop_left' hAlen]
      have hdlen : (g.queries.drop idx).length = m - idx := by
        rw [List.length_drop]
      rw [hqs, List.drop_append_of_le_length (by omega)]
      have : qs.length - (idx + 1) = m - idx := by omega
      rw [← hqs, this, List.take_append_of_le_length (by omega), List.take_of_length_le (by omega)]

theorem Add_perm_sorted (g : generator) (q : RandomQuery)
    (hsorted : g.queries.Pairwise (fun a b => b.Weight ≤ a.Weight))
    (hq : 0 < q.Weight) :
    (g.Add q).queries.Perm (q :: g.queries) ∧
    (g.Add q).queries.Pairwise (fun a b => b.Weight ≤ a.Weight) := by
  obtain ⟨idx, hidxm, hlowW, hhighW, heq⟩ := Add_queries_eq g q hsorted hq
  have hdropW : ∀ b ∈ g.queries.drop idx, b.Weight ≤ q.Weight := by
    intro b hb
    obtain ⟨k, hk, hbk⟩ := List.mem_iff_getElem.mp hb
    have hklen : idx + k < g.queries.length := by
      rw [List.length_drop] at hk
      omega
    have := hhighW (idx + k) (by omega) hklen
    rw [List.getD_eq_getElem _ _ hklen] at this
    rw [List.getElem_drop] at hbk
    rw [← hbk]
    omega
  have htakeW : ∀ a ∈ g.queries.take idx, q.Weight ≤ a.Weight := by
    intro a ha
    obtain ⟨k, hk, hak⟩ := List.mem_iff_getElem.mp ha
    have hkidx : k < idx := by
      rw [List.length_take] at hk
      omega
    have hklen : k < g.queries.length := by
      rw [List.length_take] at hk
      omega
    have := hlowW k hkidx
    rw [List.getD_eq_getElem _ _ hklen] at this
    rw [List.getElem_take] at hak
    rw [← hak]
    omega
  constructor
  · rw [heq]
    have h1 : (g.queries.take idx ++ q :: g.queries.drop idx).Perm
        (q :: (g.queries.take idx ++ g.queries.drop idx)) := List.perm_middle
    rwa [List.take_append_drop] at h1
  · rw [heq, List.pairwise_append]
    refine ⟨List.Pairwise.sublist (List.take_sublist _ _) hsorted, ?_, ?_⟩
    · rw [List.pairwise_cons]
      exact ⟨hdropW, List.Pairwise.sublist (List.drop_sublist _ _) hsorted⟩
    · intro a ha b hb
      rcases List.mem_cons.mp hb with hbq | hbd
      · rw [hbq]
        exact htakeW a ha
      · exact le_trans (hdropW b hbd) (htakeW a ha)

theorem addAll_spec (l : List RandomQuery) :
    ∀ g : generator, g.queries.Pairwise (fun a b => b.Weight ≤ a.Weight) →
      (∀ p ∈ l, 0 < p.Weight) →
      (addAll g l).queries.Perm (l ++ g.queries) ∧
      (addAll g l).queries.Pairwise (fun a b => b.Weight ≤ a.Weight) ∧
      (addAll g l).totalWeight = g.totalWeight + (l.map RandomQuery.Weight).sum := by
  induction l with
  | nil =>
    intro g hs hp
    refine ⟨?_, hs, by simp [addAll]⟩
    simp [addAll]
  | cons q rest ih =>
    intro g hs hp
    have hq : 0 < q.Weight := hp q (List.mem_cons_self _ _)
    obtain ⟨hperm, hsorted'⟩ := Add_perm_sorted g q hs hq
    have haddcons : addAll g (q :: rest) = addAll (g.Add q) rest := by
      simp [addAll]
    obtain ⟨ihp, ihs, iht⟩ := ih (g.Add q) hsorted'
      (fun p hp' => hp p (List.mem_cons_of_mem _ hp'))
    refine ⟨?_, by rwa [haddcons], ?_⟩
    · rw [haddcons]
      have h2 : (rest ++ (g.Add q).queries).Perm (rest ++ (q :: g.queries)) :=
        List.Perm.append_left rest hperm
      have h3 : (rest ++ q :: g.queries).Perm (q :: (rest ++ g.queries)) := List.perm_middle
      simpa using ihp.trans (h2.trans h3)
    · rw [haddcons, iht, Add_totalWeight]
      simp [List.sum_cons]
      ring

/-- C10: any Add sequence with positive weights (the data model's weights are
positive integers) yields exactly the added queries, no placeholder survives,
and totalWeight is the sum of the stored entries' weights. -/
theorem add_preserves_multiset_and_total (l : List RandomQuery)
    (hpos : ∀ p ∈ l, 0 < p.Weight) :
    (addAll emptyGenerator l).queries.Perm l ∧
    (addAll emptyGenerator l).totalWeight
      = ((addAll emptyGenerator l).queries.map RandomQuery.Weight).sum ∧
    zeroRandomQuery ∉ (addAll emptyGenerator l).queries := by
  obtain ⟨hperm0, hsort, htot⟩ := addAll_spec l emptyGenerator (by simp [emptyGenerator]) hpos
  have hperm : (addAll emptyGenerator l).queries.Perm l := by
    simpa [emptyGenerator] using hperm0
  refine ⟨hperm, ?_, ?_⟩
  · rw [htot, List.Perm.sum_eq (List.Perm.map RandomQuery.Weight hperm)]
    simp [emptyGenerator]
  · intro hmem
    have hz := hpos _ (hperm.mem_iff.mp hmem)
    simp [zeroRandomQuery] at hz

theorem add_preserves_multiset_and_total_witness :
    (addAll emptyGenerator w10l).queries.Perm w10l ∧
    (addAll emptyGenerator w10l).totalWeight
      = ((addAll emptyGenerator w10l).queries.map RandomQuery.Weight).sum ∧
    zeroRandomQuery ∉ (addAll emptyGenerator w10l).queries :=
  add_preserves_multiset_and_total w10l (by
    intro p hp
    simp only [w10l, List.mem_cons, List.mem_singleton, List.not_mem_nil, or_false] at hp
    rcases hp with h | h <;> rw [h] <;> decide)

/-- C3: the claim (and the code's own comment) says entries are kept sorted
ascending by weight; the inserted predicate Weight < query.Weight makes Add
keep them sorted descending instead: adding weights 1 then 2 stores [2, 1]. -/
theorem add_stores_descending_not_ascending :
    ((emptyGenerator.Add { Method := "a", Weight := 1, Generate := none }).Add
      { Method := "b", Weight := 2, Generate := none }).queries.map RandomQuery.Weight
      = [2, 1] ∧
    ¬ (((emptyGenerator.Add { Method := "a", Weight := 1, Generate := none }).Add
      { Method := "b", Weight := 2, Generate := none }).queries.map RandomQuery.Weight).Sorted
      (· ≤ ·) := by
  constructor
  · decide
  · intro h
    have : ((emptyGenerator.Add { Method := "a", Weight := 1, Generate := none }).Add
        { Method := "b", Weight := 2, Generate := none }).queries.map RandomQuery.Weight
        = [2, 1] := by decide
    rw [this, List.Sorted, List.pairwise_cons] at h
    have := h.1 1 (by simp)
    omega

theorem selectLoop_eq_selectIdx : ∀ (qs : List RandomQuery) (c w : Int),
    selectLoop qs c w = (selectIdx qs c w).map (fun i => qs.getD i zeroRandomQuery) := by
  intro qs
  induction qs with
  | nil => intro c w; rfl
  | cons q rest ih =>
    intro c w
    simp only [selectLoop, selectIdx]
    by_cases h : w ≤ c + q.Weight
    · simp [h]
    · simp only [if_neg h]
      rw [ih]
      cases selectIdx rest (c + q.Weight) w <;> simp

theorem selectIdx_eq_selectIdxW : ∀ (qs : List RandomQuery) (c w : Int),
    selectIdx qs c w = selectIdxW (qs.map RandomQuery.Weight) c w := by
  intro qs
  induction qs with
  | nil => intro c w; rfl
  | cons q rest ih =>
    intro c w
    simp only [selectIdx, selectIdxW, List.map_cons]
    by_cases h : w ≤ c + q.Weight
    · simp [h]
    · simp only [if_neg h, ih]

theorem selectLoop_isSome : ∀ (qs : List RandomQuery) (c d : Int), qs ≠ [] →
    d ≤ c + (qs.map RandomQuery.Weight).sum → (selectLoop qs c d).isSome = true := by
  intro qs
  induction qs with
  | nil => intro c d h; exact absurd rfl h
  | cons q rest ih =>
    intro c d _ hle
    simp only [selectLoop]
    by_cases h : d ≤ c + q.Weight
    · simp [h]
    · simp only [if_neg h]
      rcases rest with _ | ⟨r, rs⟩
      · exfalso
        simp only [List.map_cons, List.map_nil, List.sum_cons, List.sum_nil] at hle
        omega
      · apply ih _ _ (by simp)
        simp only [List.map_cons, List.sum_cons] at hle ⊢
        omega

/-- C4: on a well-formed non-empty registry and a non-negative draw from the
random source, the draw is within [0, totalWeight), the walk finds a covering
entry before exhausting the sequence, and Query's off-by-one panic branch is
unreachable. -/
theorem query_draw_bounded_and_panic_unreachable (g : generator) (s : State)
    (hne : g.queries ≠ [])
    (hpos : ∀ p ∈ g.queries, 0 < p.Weight)
    (htot : g.totalWeight = (g.queries.map RandomQuery.Weight).sum)
    (hr : 0 ≤ s.randSrc s.pos) :
    0 ≤ Int.tmod (s.randSrc s.pos) g.totalWeight ∧
    Int.tmod (s.randSrc s.pos) g.totalWeight < g.totalWeight ∧
    (selectLoop g.queries 0 (Int.tmod (s.randSrc s.pos) g.totalWeight)).isSome = true ∧
    g.Query s ≠ .panicked offByOneMsg := by
  have hT : 0 < g.totalWeight := by
    rw [htot]
    apply List.sum_pos
    · intro w hw
      obtain ⟨p, hp, hpw⟩ := List.mem_map.mp hw
      rw [← hpw]
      exact hpos p hp
    · simpa using hne
  have h1 : 0 ≤ Int.tmod (s.randSrc s.pos) g.totalWeight := Int.tmod_nonneg _ hr
  have h2 : Int.tmod (s.randSrc s.pos) g.totalWeight < g.totalWeight :=
    Int.tmod_lt_of_pos _ hT
  have h3 : (selectLoop g.queries 0 (Int.tmod (s.randSrc s.pos) g.totalWeight)).isSome = true := by
    apply selectLoop_isSome _ _ _ hne
    rw [← htot]
    omega
  refine ⟨h1, h2, h3, ?_⟩
  have hlen : ¬ g.queries.length = 0 := by
    intro h0
    exact hne (List.length_eq_zero.mp h0)
  obtain ⟨q, hq⟩ := Option.isSome_iff_exists.mp h3
  have hmsg : nilDerefMsg ≠ offByOneMsg := by decide
  simp only [generator.Query, if_neg hlen, State.RandInt64, hq]
  cases q.Generate with
  | none =>
    intro hc
    exact hmsg (ExecOutcome.panicked.inj hc)
  | some gen =>
    intro hc
    exact ExecOutcome.noConfusion hc

theorem query_draw_bounded_and_panic_unreachable_witness :
    0 ≤ Int.tmod (st0.randSrc st0.pos) eofGen.totalWeight ∧
    Int.tmod (st0.randSrc st0.pos) eofGen.totalWeight < eofGen.totalWeight ∧
    (selectLoop eofGen.queries 0 (Int.tmod (st0.randSrc st0.pos) eofGen.totalWeight)).isSome
      = true ∧
    eofGen.Query st0 ≠ .panicked offByOneMsg :=
  query_draw_bounded_and_panic_unreachable eofGen st0 (by simp [eofGen])
    (by
      intro p hp
      simp only [eofGen, List.mem_singleton] at hp
      rw [hp]
      decide)
    (by decide)
    (by decide)

/-- C1: the claim says a failed transport send is logged and the worker
continues; in fact a transport-level failure makes http.Post return a nil
response with a non-nil error, the log call dereferences resp.StatusCode, and
the goroutine panics, killing the process before the worker can continue. -/
theorem transport_failure_panics_process :
    query (none, some "Post dial tcp: connection refused") 0 = .panicked nilDerefMsg := rfl

/-- C5: the claim says the counter is incremented exactly once per attempt
whether the send succeeds or fails; the code increments exactly once on
success, but on a transport failure it panics on the nil response before
reaching the increment, so no increment happens. -/
theorem counter_not_incremented_on_failed_send :
    query (some { StatusCode := 200 }, none) 41 = .ok (42, []) ∧
    query (none, some "i/o timeout") 41 = .panicked nilDerefMsg := ⟨rfl, rfl⟩

/-- C8: the claim says every task stops at its next suspension point once
cancellation is raised; but the producer's 15-second interval select has an
empty ctx.Done case and no return, so observing cancellation there still leads
to another Refresh, and a worker blocked in its first plain channel receive
has no cancellation alternative and stays blocked. -/
theorem cancellation_not_prompt_at_all_suspension_points :
    producerStep .intervalWait (.ok st0) true = .refreshing ∧
    producerStep .intervalWait (.ok st0) true ≠ .stopped ∧
    workerFirstWait none true = none := by
  refine ⟨rfl, ?_, rfl⟩
  intro h
  exact ProducerPhase.noConfusion h

/-- C7: a worker that sees io.EOF from Query returns (no exit call, no further
dispatches, the process keeps running); a worker that sees any other Query
error calls exit(2), ending the whole process. -/
theorem worker_eof_stops_worker_other_errors_fatal (opts : Options) (g : generator)
    (env : WorkerEnv) (k : Nat) (st : State) (c : Int) (fuel : Nat)
    (hch : env.chan k = none) (hcz : env.canceled k = false) :
    (∀ out s', g.Query st = .ok (some (.fromGen .eof), out, s') →
      workerLoop opts g env k st c (fuel + 1) = .finished []) ∧
    (∀ e out s', g.Query st = .ok (some e, out, s') → e ≠ .fromGen .eof →
      workerLoop opts g env k st c (fuel + 1) = .procExit 2 []) := by
  have hsel : selectState env k st = some st := by
    simp [selectState, hch, hcz]
  constructor
  · intro out s' hQ
    simp only [workerLoop, hsel, hQ]
  · intro e out s' hQ hne
    cases e with
    | noGenerators => simp only [workerLoop, hsel, hQ]
    | fromGen ge =>
      cases ge with
      | eof => exact absurd rfl hne
      | other msg => simp only [workerLoop, hsel, hQ]

theorem worker_eof_stops_worker_other_errors_fatal_witness :
    workerLoop opts0 eofGen env0 0 st0 0 1 = .finished [] ∧
    workerLoop opts0 emptyGenerator env0 0 st0 0 1 = .procExit 2 [] :=
  ⟨(worker_eof_stops_worker_other_errors_fatal opts0 eofGen env0 0 st0 0 0 rfl rfl).1
      "" { randSrc := st0.randSrc, pos := 1 } rfl,
    (worker_eof_stops_worker_other_errors_fatal opts0 emptyGenerator env0 0 st0 0 0 rfl rfl).2
      .noGenerators "" st0 rfl (by intro h; exact QueryError.noConfusion h)⟩

/-- C9: the RateLimit option is parsed but the limiter code is commented out,
so the worker loop never consults it: two runs differing only in RateLimit
produce identical dispatch behavior. -/
theorem rate_limit_has_no_dispatch_effect (o1 o2 : Options)
    (hm : o1.Methods = o2.Methods) (he : o1.Web3Endpoint = o2.Web3Endpoint)
    (hv : o1.Version = o2.Version) (g : generator) (env : WorkerEnv) :
    ∀ fuel k st c, workerLoop o1 g env k st c fuel = workerLoop o2 g env k st c fuel := by
  intro fuel
  induction fuel with
  | zero => intro k st c; rfl
  | succ fuel ih =>
    intro k st c
    simp only [workerLoop]
    cases selectState env k st with
    | none => rfl
    | some st1 =>
      dsimp only
      cases hq : g.Query st1 with
      | panicked m => rfl
      | ok v =>
        obtain ⟨eopt, out, s'⟩ := v
        cases eopt with
        | none =>
          dsimp only
          cases hpost : query (env.post k) c with
          | panicked m => rw [he]
          | ok p =>
            obtain ⟨c', logs⟩ := p
            dsimp only
            rw [he, ih]
        | some e =>
          cases e with
          | noGenerators => rfl
          | fromGen ge =>
            cases ge with
            | eof => rfl
            | other m => rfl

theorem rate_limit_has_no_dispatch_effect_witness :
    workerLoop opts0 okGen env0 0 st0 0 2 = workerLoop opts1 okGen env0 0 st0 0 2 :=
  rate_limit_has_no_dispatch_effect opts0 opts1 rfl rfl rfl okGen env0 2 0 st0 0

theorem partSum_zero (ws : List Int) : partSum ws 0 = 0 := rfl

theorem partSum_cons_succ (w : Int) (ws : List Int) (k : Nat) :
    partSum (w :: ws) (k + 1) = w + partSum ws k := by
  simp [partSum]

theorem partSum_length (ws : List Int) : partSum ws ws.length = ws.sum := by
  simp [partSum]

theorem partSum_getD (ws : List Int) : ∀ k, k < ws.length →
    partSum ws (k + 1) = partSum ws k + ws.getD k 0 := by
  induction ws with
  | nil => intro k hk; simp at hk
  | cons w rest ih =>
    intro k hk
    cases k with
    | zero => simp [partSum_cons_succ, partSum_zero]
    | succ k =>
      rw [partSum_cons_succ, partSum_cons_succ, ih k (by simpa using hk), List.getD_cons_succ]
      ring

theorem partSum_ge (ws : List Int) (h1 : ∀ w ∈ ws, 0 < w) :
    ∀ k l, k ≤ l → l ≤ ws.length → partSum ws k + (l : Int) - (k : Int) ≤ partSum ws l := by
  induction ws with
  | nil =>
    intro k l hkl hl
    simp only [List.length_nil, Nat.le_zero] at hl
    subst hl
    have hk0 : k = 0 := by omega
    subst hk0
    simp
  | cons w rest ih =>
    have hw : 0 < w := h1 w (List.mem_cons_self _ _)
    have h1' : ∀ x ∈ rest, 0 < x := fun x hx => h1 x (List.mem_cons_of_mem _ hx)
    intro k l hkl hl
    cases l with
    | zero =>
      have : k = 0 := by omega
      subst this
      simp
    | succ l =>
      cases k with
      | zero =>
        have := ih h1' 0 l (by omega) (by simpa using hl)
        rw [partSum_cons_succ, partSum_zero] at *
        push_cast
        omega
      | succ k =>
        have := ih h1' k l (by omega) (by simpa using hl)
        rw [partSum_cons_succ, partSum_cons_succ]
        push_cast
        omega

theorem partSum_nonneg (ws : List Int) (h1 : ∀ w ∈ ws, 0 < w) (k : Nat)
    (hk : k ≤ ws.length) : 0 ≤ partSum ws k := by
  have := partSum_ge ws h1 0 k (by omega) hk
  rw [partSum_zero] at this
  omega

theorem partSum_mono (ws : List Int) (h1 : ∀ w ∈ ws, 0 < w) {k l : Nat}
    (hkl : k ≤ l) (hl : l ≤ ws.length) : partSum ws k ≤ partSum ws l := by
  have := partSum_ge ws h1 k l hkl hl
  omega

theorem optMap_succ_eq_some (o : Option Nat) (k : Nat) :
    (o.map (· + 1) = some (k + 1)) ↔ o = some k := by
  cases o <;> simp

theorem selectIdxW_eq_some_iff :
    ∀ (ws : List Int) (c d : Int) (i : Nat),
      selectIdxW ws c d = some i ↔
        i < ws.length ∧ d ≤ c + partSum ws (i + 1) ∧
        ∀ j, j < i → c + partSum ws (j + 1) < d := by
  intro ws
  induction ws with
  | nil => intro c d i; simp [selectIdxW]
  | cons w rest ih =>
    intro c d i
    simp only [selectIdxW]
    by_cases hle : d ≤ c + w
    · rw [if_pos hle]
      cases i with
      | zero =>
        simp only [List.length_cons, partSum_cons_succ, partSum_zero]
        constructor
        · intro _
          exact ⟨by omega, by omega, by omega⟩
        · intro _
          trivial
      | succ k =>
        constructor
        · intro h
          exact absurd h (by simp)
        · rintro ⟨-, -, hall⟩
          have h0 := hall 0 (by omega)
          rw [partSum_cons_succ, partSum_zero] at h0
          omega
    · rw [if_neg hle]
      cases i with
      | zero =>
        constructor
        · intro h
          simp at h
        · rintro ⟨-, h2, -⟩
          rw [partSum_cons_succ, partSum_zero] at h2
          omega
      | succ k =>
        rw [optMap_succ_eq_some, ih (c + w) d k]
        constructor
        · rintro ⟨hk, h2, hall⟩
          refine ⟨by simpa using Nat.succ_lt_succ hk, ?_, ?_⟩
          · rw [partSum_cons_succ]
            omega
          · intro j hj
            cases j with
            | zero =>
              rw [partSum_cons_succ, partSum_zero]
              omega
            | succ j =>
              rw [partSum_cons_succ]
              have := hall j (by omega)
              omega
        · rintro ⟨hk, h2, hall⟩
          refine ⟨by simpa using hk, ?_, ?_⟩
          · rw [partSum_cons_succ] at h2
            omega
          · intro j hj
            have := hall (j + 1) (by omega)
            rw [partSum_cons_succ] at this
            omega

theorem selectIdxW_count (ws : List Int) (h1 : ∀ w ∈ ws, 0 < w) (i : Nat)
    (hi : i < ws.length) :
    (((Finset.Icc (0:ℤ) (ws.sum - 1)).filter (fun d => selectIdxW ws 0 d = some i)).card : ℤ)
      = ws.getD i 0 + (if i = 0 then 1 else 0)
        - (if i = ws.length - 1 then 1 else 0) := by
  classical
  have hTps : partSum ws ws.length = ws.sum := partSum_length ws
  have hstep : ∀ k, k < ws.length → partSum ws (k + 1) = partSum ws k + ws.getD k 0 :=
    partSum_getD ws
  have hTn : (ws.length : ℤ) ≤ ws.sum := by
    have := partSum_ge ws h1 0 ws.length (by omega) (by omega)
    rw [partSum_zero, hTps] at this
    omega
  have hn1 : 1 ≤ ws.length := by omega
  have hgd : 0 < ws.getD i 0 := by
    rw [List.getD_eq_getElem _ _ hi]
    exact h1 _ (List.getElem_mem hi)
  rcases Nat.eq_zero_or_pos i with hi0 | hipos
  · subst hi0
    have hset : (Finset.Icc (0:ℤ) (ws.sum - 1)).filter (fun d => selectIdxW ws 0 d = some 0)
        = Finset.Icc 0 (min (partSum ws 1) (ws.sum - 1)) := by
      ext d
      simp only [Finset.mem_filter, Finset.mem_Icc, selectIdxW_eq_some_iff, zero_add,
        le_min_iff]
      constructor
      · rintro ⟨⟨h0, hT1⟩, hlen, hle, -⟩
        exact ⟨h0, hle, hT1⟩
      · rintro ⟨h0, hle, hT1⟩
        refine ⟨⟨h0, hT1⟩, by omega, hle, ?_⟩
        intro j hj
        exact absurd hj (by omega)
    have hp1 : partSum ws 1 = ws.getD 0 0 := by
      have h := hstep 0 (by omega)
      rw [partSum_zero] at h
      simpa using h
    rcases le_or_lt (partSum ws 1) (ws.sum - 1) with hcase | hcase
    · rw [min_eq_left hcase] at hset
      rw [hset, Int.card_Icc_of_le _ _ (by omega)]
      have hn2 : 1 < ws.length := by
        by_contra h
        have hone : ws.length = 1 := by omega
        rw [hone] at hTps
        omega
      rw [if_neg (show ¬((0:ℕ) = ws.length - 1) by omega), if_pos rfl]
      omega
    · rw [min_eq_right (le_of_lt hcase)] at hset
      rw [hset, Int.card_Icc_of_le _ _ (by omega)]
      have hps1n : partSum ws 1 ≤ ws.sum := by
        have := partSum_mono ws h1 hn1 (le_refl ws.length)
        rwa [hTps] at this
      rw [if_pos rfl, if_pos (show (0:ℕ) = ws.length - 1 by
        by_contra h
        have h2 : 2 ≤ ws.length := by omega
        have := partSum_ge ws h1 1 ws.length (by omega) (by omega)
        rw [hTps] at this
        have hc : (2:ℤ) ≤ (ws.length:ℤ) := by exact_mod_cast h2
        omega)]
      omega
  · have hpsi : (i : ℤ) ≤ partSum ws i := by
      have := partSum_ge ws h1 0 i (by omega) (by omega)
      rw [partSum_zero] at this
      omega
    have hpsipos : 1 ≤ partSum ws i := by
      have hc : (1 : ℤ) ≤ (i : ℤ) := by exact_mod_cast hipos
      omega
    have hmono' : ∀ j, j < i → partSum ws (j + 1) ≤ partSum ws i := fun j hj =>
      partSum_mono ws h1 (by omega) (by omega)
    have hstepi : partSum ws (i + 1) = partSum ws i + ws.getD i 0 := hstep i hi
    have hTub : partSum ws i ≤ ws.sum - 1 := by
      have := partSum_ge ws h1 i ws.length (by omega) (by omega)
      rw [hTps] at this
      have hc : (i : ℤ) < (ws.length : ℤ) := by exact_mod_cast hi
      omega
    have hset : (Finset.Icc (0:ℤ) (ws.sum - 1)).filter (fun d => selectIdxW ws 0 d = some i)
        = Finset.Ioc (partSum ws i) (min (partSum ws (i + 1)) (ws.sum - 1)) := by
      ext d
      simp only [Finset.mem_filter, Finset.mem_Icc, Finset.mem_Ioc, selectIdxW_eq_some_iff,
        zero_add, le_min_iff]
      constructor
      · rintro ⟨⟨h0, hT1⟩, hlen, hle, hall⟩
        have hprev := hall (i - 1) (by omega)
        have hi1 : i - 1 + 1 = i := by omega
        rw [hi1] at hprev
        exact ⟨hprev, hle, hT1⟩
      · rintro ⟨hlt, hle, hT1⟩
        refine ⟨⟨by omega, hT1⟩, hi, hle, ?_⟩
        intro j hj
        have := hmono' j hj
        omega
    rcases le_or_lt (partSum ws (i + 1)) (ws.sum - 1) with hcase | hcase
    · rw [min_eq_left hcase] at hset
      rw [hset, Int.card_Ioc_of_le _ _ (by omega)]
      have hmid : ¬ (i = ws.length - 1) := by
        intro h
        have hip1 : i + 1 = ws.length := by omega
        rw [hip1, hTps] at hcase
        omega
      rw [if_neg (by omega), if_neg hmid]
      omega
    · rw [min_eq_right (le_of_lt hcase)] at hset
      rw [hset, Int.card_Ioc_of_le _ _ hTub]
      have hub2 : partSum ws (i + 1) ≤ ws.sum := by
        have := partSum_mono ws h1 (show i + 1 ≤ ws.length by omega) (le_refl ws.length)
        rwa [hTps] at this
      have hlast : i = ws.length - 1 := by
        by_contra h
        have h2 : i + 1 < ws.length := by omega
        have := partSum_ge ws h1 (i + 1) ws.length (by omega) (by omega)
        rw [hTps] at this
        have hc : (i:ℤ) + 2 ≤ (ws.length:ℤ) := by exact_mod_cast h2
        omega
      rw [if_neg (by omega), if_pos hlast]
      omega

/-- C2 amended: with the code's inclusive tie-break (current >= weight), entry
i is selected for exactly wi + (1 if i is first) - (1 if i is last) of the T
draws in [0, T): the bonus draw 0 goes to the first entry and the last entry
covers one draw fewer, so only middle entries get exactly wi.  The first
conjunct ties the counted index walk to the entry walk Query runs. -/
theorem weighted_selection_exact_counts (g : generator) (i : Nat) (d : Int)
    (hpos : ∀ p ∈ g.queries, 0 < p.Weight)
    (htot : g.totalWeight = (g.queries.map RandomQuery.Weight).sum)
    (hi : i < g.queries.length) :
    selectLoop g.queries 0 d
      = (selectIdx g.queries 0 d).map (fun k => g.queries.getD k zeroRandomQuery) ∧
    (((Finset.Icc (0:ℤ) (g.totalWeight - 1)).filter
        (fun x => selectIdx g.queries 0 x = some i)).card : ℤ)
      = (g.queries.map RandomQuery.Weight).getD i 0
        + (if i = 0 then 1 else 0) - (if i = g.queries.length - 1 then 1 else 0) := by
  constructor
  · exact selectLoop_eq_selectIdx g.queries 0 d
  · have h1 : ∀ w ∈ g.queries.map RandomQuery.Weight, 0 < w := by
      intro w hw
      obtain ⟨p, hp, rfl⟩ := List.mem_map.mp hw
      exact hpos p hp
    have hlen : i < (g.queries.map RandomQuery.Weight).length := by simpa using hi
    have hcount := selectIdxW_count (g.queries.map RandomQuery.Weight) h1 i hlen
    rw [htot]
    have hfilter : (Finset.Icc (0:ℤ) ((g.queries.map RandomQuery.Weight).sum - 1)).filter
          (fun x => selectIdx g.queries 0 x = some i)
        = (Finset.Icc (0:ℤ) ((g.queries.map RandomQuery.Weight).sum - 1)).filter
          (fun x => selectIdxW (g.queries.map RandomQuery.Weight) 0 x = some i) := by
      apply Finset.filter_congr
      intro x _
      exact iff_of_eq (by rw [selectIdx_eq_selectIdxW])
    rw [hfilter]
    simpa using hcount

/-- C2 as stated is false on the code: in cxGen the second entry has weight 1
of total 2, yet the inclusive walk selects it for 0 of the 2 draws in the
interval, because draws 0 and 1 both stop at the first entry. -/
theorem weighted_selection_not_proportional :
    ¬ ((((Finset.Icc (0:ℤ) (cxGen.totalWeight - 1)).filter
        (fun x => selectIdx cxGen.queries 0 x = some 1)).card : ℤ)
      = (cxGen.queries.map RandomQuery.Weight).getD 1 0) := by decide

theorem weighted_selection_exact_counts_witness :
    selectLoop wGen.queries 0 1
      = (selectIdx wGen.queries 0 1).map (fun k => wGen.queries.getD k zeroRandomQuery) ∧
    (((Finset.Icc (0:ℤ) (wGen.totalWeight - 1)).filter
        (fun x => selectIdx wGen.queries 0 x = some 0)).card : ℤ)
      = (wGen.queries.map RandomQuery.Weight).getD 0 0
        + (if (0:ℕ) = 0 then 1 else 0)
        - (if (0:ℕ) = wGen.queries.length - 1 then 1 else 0) :=
  weighted_selection_exact_counts wGen 0 1
    (by
      intro p hp
      simp only [wGen, List.mem_cons, List.mem_singleton, List.not_mem_nil, or_false] at hp
      rcases hp with h | h <;> rw [h] <;> decide)
    (by decide)
    (by decide)
